import Mathlib

/-!
Verification of the hexmaps grid engine (`src/hexmaps/earth/grid.py`).

The Python module builds a bounded rectangular grid of hexagonal cells by
breadth-first expansion from a seed cell, using an external hexagonal spatial
index (h3) and an external geodesic solver (pyproj) as pure oracles.  We embed
the module shallowly: the two external collaborators become an explicit
environment `Env` (a pentagon predicate, an unordered neighbor ring, and a
forward-azimuth function), floats become rationals, Python dicts become
insertion-ordered association lists, and `collections.deque` becomes a list
whose head is the left end.
-/

namespace Hexmaps

/-- The external collaborators of the grid engine, as pure functions:
`isPentagon` and `ring` come from the h3 spatial index (`memview_int`),
`bearing` is the forward azimuth of the inverse geodesic solution
(`WGS84_GEOD.inv`), in degrees. Cell indices are opaque naturals. -/
structure Env where
  isPentagon : Nat → Bool
  ring : Nat → List Nat
  bearing : Nat → Nat → ℚ

/-- Model of `Cell.get_bearing`: returns the forward azimuth `fwd` of
`WGS84_GEOD.inv` unchanged. -/
def getBearing (env : Env) (a b : Nat) : ℚ := env.bearing a b

/-- Python's float modulo `x % 360.0`: the representative of `x` in
`[0, 360)` (for finite inputs), i.e. `x - 360 * ⌊x / 360⌋` (written with the
executable `Rat.floor`). -/
def fmod360 (x : ℚ) : ℚ := x - 360 * ((x / 360).floor : ℚ)

/-- The `Neighbor` dataclass: a cell together with the position and angle
assigned by the ordering algorithm. -/
structure Neighbor where
  cell : Nat
  position : Nat
  angle : ℚ
  deriving DecidableEq, Repr

/-- Model of `Cell.get_neighbor_map`: pair each ring member with its angle
`(get_bearing(n) - bearing) % 360.0`, sort ascending by angle (Python's
`sorted` is a stable sort, as is `List.insertionSort` with `≤` on keys),
and enumerate positions in sorted order.  The Python dict `{i: Neighbor…}`
is insertion-ordered, so it is returned here as the list of neighbors in
position order `0, 1, …`. -/
def getNeighborMap (env : Env) (cell : Nat) (bearing : ℚ) : List Neighbor :=
  let angles := (env.ring cell).map (fun n => (fmod360 (getBearing env cell n - bearing), n))
  let sorted := angles.insertionSort (fun x y => x.1 ≤ y.1)
  sorted.enum.map (fun p => ⟨p.2.2, p.1, p.2.1⟩)

/-- Model of `Grid._SHIFT_NEIGHBOR_J` (the dict only holds keys 0–5; positions are
always in that range because pentagons abort the expansion first). -/
def shiftJ : Nat → Int
  | 0 => 1
  | 1 => 0
  | 2 => -1
  | 3 => -1
  | 4 => 0
  | 5 => 1
  | _ => 0

/-- Model of `Grid._SHIFT_NEIGHBOR_I_EVEN`. -/
def shiftIEven : Nat → Int
  | 0 => 0
  | 1 => 1
  | 2 => 0
  | 3 => -1
  | 4 => -1
  | 5 => -1
  | _ => 0

/-- Model of `Grid._SHIFT_NEIGHBOR_I_ODD`. -/
def shiftIOdd : Nat → Int
  | 0 => 1
  | 1 => 1
  | 2 => 1
  | 3 => 0
  | 4 => -1
  | 5 => 0
  | _ => 0

/-- The coordinate translation inside `Grid.expand_from_cell`: from a cell at
offset coordinates `(i, j)`, the neighbor at position `p` gets
`(i + Δi, j + Δj)` where `Δi` depends on the parity of `j` (Python's
`j % 2 == 0`; `Int.emod` agrees with Python's `%` for the positive
modulus 2). -/
def neighborCoordinates (c : Int × Int) (p : Nat) : Int × Int :=
  (c.1 + (if c.2.emod 2 = 0 then shiftIEven p else shiftIOdd p), c.2 + shiftJ p)

/-- Model of `GridCell`: a cell with its integer key and offset coordinates. -/
structure GridCell where
  cell : Nat
  key : Int
  coordinates : Int × Int
  deriving DecidableEq, Repr

/-- The Grid's `_cell_map`: a Python dict with int keys, modelled as an
insertion-ordered association list. -/
abbrev CellMap := List (Int × GridCell)

/-- Python dict assignment `d[k] = v`: update in place if the key exists
(keeping its position), otherwise append at the end. -/
def mapInsert (m : CellMap) (k : Int) (v : GridCell) : CellMap :=
  if m.any (fun e => e.1 = k) then
    m.map (fun e => if e.1 = k then (k, v) else e)
  else m ++ [(k, v)]

/-- Python dict read `d[k]` (as an `Option`; `none` is the `KeyError`). -/
def mapFind (m : CellMap) (k : Int) : Option GridCell :=
  (m.find? (fun e => e.1 = k)).map (fun e => e.2)

/-- Model of `Grid.coordinates_to_key`: `i + width * j` (no bounds check). -/
def coordinatesToKey (w : Nat) (c : Int × Int) : Int := c.1 + (w : Int) * c.2

/-- Model of `Grid.key_to_coordinates`: `(key % width, key // width)`; Python `%` and
`//` on ints are floor-based, i.e. `Int.fmod` / `Int.fdiv`. -/
def keyToCoordinates (w : Nat) (k : Int) : Int × Int := (k.fmod (w : Int), k.fdiv (w : Int))

/-- The bounds test of `Grid.expand_from_cell`:
`0 <= i < width and 0 <= j < height`. -/
def InBounds (w h : Nat) (c : Int × Int) : Prop :=
  0 ≤ c.1 ∧ c.1 < (w : Int) ∧ 0 ≤ c.2 ∧ c.2 < (h : Int)

instance (w h : Nat) (c : Int × Int) : Decidable (InBounds w h c) := by
  unfold InBounds; infer_instance

/-- A frontier entry: offset coordinates together with the cell. -/
abbrev QEntry := (Int × Int) × Nat

/-- Model of `deque.pop()`: it pops the right end; the deque is a list whose head is the
left end, so this returns the last element and the rest. -/
def popRight {α : Type} (q : List α) : Option (α × List α) :=
  match q.getLast? with
  | none => none
  | some x => some (x, q.dropLast)

/-- The inner `for position, neighbor in cell.get_neighbor_map(...).items()`
loop of `Grid.expand_from_cell`: for each neighbor in position order, if its
cell is unvisited, mark it visited, translate the coordinates, and — only if
they are in bounds — `appendleft` it onto the frontier. -/
def processNeighbors (w h : Nat) (coords : Int × Int) :
    List Neighbor → List Nat → List QEntry → List Nat × List QEntry
  | [], v, q => (v, q)
  | nb :: nbrs, v, q =>
    if nb.cell ∈ v then processNeighbors w h coords nbrs v q
    else
      let nc := neighborCoordinates coords nb.position
      if InBounds w h nc then
        processNeighbors w h coords nbrs (nb.cell :: v) ((nc, nb.cell) :: q)
      else processNeighbors w h coords nbrs (nb.cell :: v) q

/-- The `while len(queue) > 0` loop of `Grid.expand_from_cell`, with explicit
fuel (`none` = fuel ran out; the loop in fact terminates, see C10).  Each
iteration pops the right end of the deque, aborts with the pentagon error
(`Except.error`), stores the `GridCell` under `coordinates_to_key`, and
enqueues the unvisited in-bounds neighbors on the left end. -/
def expandLoop (env : Env) (w h : Nat) (bearing : ℚ) :
    Nat → CellMap → List QEntry → List Nat → Option (Except Unit CellMap)
  | 0, _, _, _ => none
  | fuel + 1, cm, q, v =>
    match popRight q with
    | none => some (.ok cm)
    | some ((coords, cell), q') =>
      if env.isPentagon cell then some (.error ())
      else
        let key := coordinatesToKey w coords
        let cm' := mapInsert cm key ⟨cell, key, coords⟩
        let vq := processNeighbors w h coords (getNeighborMap env cell bearing) v q'
        expandLoop env w h bearing fuel cm' vq.2 vq.1

/-- The seed coordinates `(width // 2, height // 2)`. -/
def seedCoordinates (w h : Nat) : Int × Int := ((w / 2 : Nat), (h / 2 : Nat))

/-- Model of `Grid.expand_from_cell`: clear the map, seed the deque with
`(seed_coordinates, seed)` and the visited set with `{seed}`, and run the
loop. -/
def expandFromCell (env : Env) (w h : Nat) (bearing : ℚ) (fuel : Nat) (seed : Nat) :
    Option (Except Unit CellMap) :=
  expandLoop env w h bearing fuel [] [(seedCoordinates w h, seed)] [seed]

/-- The spec's FIFO view of the frontier (§4.3 / design note §9): a plain
queue that enqueues at the tail and dequeues at the head.  Same neighbor
loop as `processNeighbors` but with tail enqueue. -/
def processNeighborsF (w h : Nat) (coords : Int × Int) :
    List Neighbor → List Nat → List QEntry → List Nat × List QEntry
  | [], v, q => (v, q)
  | nb :: nbrs, v, q =>
    if nb.cell ∈ v then processNeighborsF w h coords nbrs v q
    else
      let nc := neighborCoordinates coords nb.position
      if InBounds w h nc then
        processNeighborsF w h coords nbrs (nb.cell :: v) (q ++ [(nc, nb.cell)])
      else processNeighborsF w h coords nbrs (nb.cell :: v) q

/-- The expansion loop on the FIFO view: dequeue the head, enqueue at the
tail. -/
def expandLoopF (env : Env) (w h : Nat) (bearing : ℚ) :
    Nat → CellMap → List QEntry → List Nat → Option (Except Unit CellMap)
  | 0, _, _, _ => none
  | fuel + 1, cm, q, v =>
    match q with
    | [] => some (.ok cm)
    | (coords, cell) :: q' =>
      if env.isPentagon cell then some (.error ())
      else
        let key := coordinatesToKey w coords
        let cm' := mapInsert cm key ⟨cell, key, coords⟩
        let vq := processNeighborsF w h coords (getNeighborMap env cell bearing) v q'
        expandLoopF env w h bearing fuel cm' vq.2 vq.1

/-- Model of `Grid.__getitem__` with an integer key. -/
def getItemKey (m : CellMap) (k : Int) : Option GridCell := mapFind m k

/-- Model of `Grid.__getitem__` with an `(i, j)` pair: the pair is translated with
`coordinates_to_key` and then looked up. -/
def getItemCoordinates (w : Nat) (m : CellMap) (c : Int × Int) : Option GridCell :=
  mapFind m (coordinatesToKey w c)

/-! ### A concrete flat test environment

A synthetic, perfectly consistent hex world used to evaluate the model on
concrete inputs: cell ids encode offset coordinates injectively (a pairing
function on ℤ²), the ring of a cell is given by the very shift table the grid
uses, and bearings are `60° × position`, so the angle sort recovers the table
positions. -/

/-- Encode an integer as a natural (even naturals ↦ nonnegative ints). -/
def intEncode : Int → Nat
  | .ofNat n => 2 * n
  | .negSucc n => 2 * n + 1

/-- Inverse of `intEncode`. -/
def intDecode (n : Nat) : Int :=
  if n % 2 = 0 then .ofNat (n / 2) else .negSucc (n / 2)

/-- Encode offset coordinates `(i, j)` as a cell id. -/
def encodeCell (c : Int × Int) : Nat := Nat.pair (intEncode c.1) (intEncode c.2)

/-- Decode a cell id back to offset coordinates. -/
def decodeCell (n : Nat) : Int × Int :=
  (intDecode (Nat.unpair n).1, intDecode (Nat.unpair n).2)

/-- The neighbor ring in the flat world, listed in table-position order. -/
def flatRing (n : Nat) : List Nat :=
  (List.range 6).map (fun p => encodeCell (neighborCoordinates (decodeCell n) p))

/-- Bearings in the flat world: the neighbor at table position `p` lies at
azimuth `60 p` degrees; non-neighbors get `0` (never used). -/
def flatBearing (c n : Nat) : ℚ :=
  match (List.range 6).find? (fun p => encodeCell (neighborCoordinates (decodeCell c) p) = n) with
  | some p => 60 * (p : ℚ)
  | none => 0

/-- The flat test environment: no pentagons anywhere. -/
def flatEnv : Env := ⟨fun _ => false, flatRing, flatBearing⟩

/-- A counterexample environment for C3: the geodesic solver reports the
forward azimuth `-90°` (pyproj's `Geod.inv` returns azimuths in
`(-180, 180]`, and `-90` is what it reports for a due-west pair). -/
def westEnv : Env := ⟨fun _ => false, fun _ => [], fun _ _ => -90⟩

/-- An environment in which every cell is a pentagon (h3 pentagons are rare,
but any one of them seeds this behavior). -/
def pentEnv : Env := ⟨fun _ => true, fun _ => [], fun _ _ => 0⟩

/-- The cell map produced by expanding a 5×2 grid from the flat-world cell at
offset `(2, 1)` (the value of `expandFromCell flatEnv 5 2 0 30
(encodeCell (2, 1))`, fixed as a literal so theorems can inspect it). -/
def flatGrid : CellMap :=
  [(7, ⟨22, 7, (2, 1)⟩), (8, ⟨44, 8, (3, 1)⟩), (3, ⟨42, 3, (3, 0)⟩),
   (2, ⟨20, 2, (2, 0)⟩), (6, ⟨8, 6, (1, 1)⟩), (9, ⟨74, 9, (4, 1)⟩),
   (4, ⟨72, 4, (4, 0)⟩), (1, ⟨6, 1, (1, 0)⟩), (5, ⟨4, 5, (0, 1)⟩),
   (0, ⟨0, 0, (0, 0)⟩)]

/-- Reachability of a cell from the seed by hex-adjacency steps whose offset
coordinates all stay inside `[0, w) × [0, h)`: the seed sits at the central
coordinates, and each step moves to a neighbor of the current cell at that
neighbor's position-shifted coordinates, which must be in bounds. -/
inductive ReachIB (env : Env) (w h : Nat) (b : ℚ) (seed : Nat) : Nat → (Int × Int) → Prop
  | seed : InBounds w h (seedCoordinates w h) →
      ReachIB env w h b seed seed (seedCoordinates w h)
  | step {c : Nat} {coords : Int × Int} {nb : Neighbor} :
      ReachIB env w h b seed c coords →
      nb ∈ getNeighborMap env c b →
      InBounds w h (neighborCoordinates coords nb.position) →
      ReachIB env w h b seed nb.cell (neighborCoordinates coords nb.position)

/-- A coordinate assignment for the whole cell universe that the ordered
neighbor maps respect: the seed sits at the central coordinates and every
neighbor's coordinates are its parent's shifted by the neighbor's position.
This is the path-independence a locally flat hex tiling enjoys; bearing
re-anchoring on the sphere can break it (see the C8 counterexample). -/
def Consistent (env : Env) (w h : Nat) (b : ℚ) (seed : Nat) (φ : Nat → Int × Int) : Prop :=
  φ seed = seedCoordinates w h ∧
  ∀ c nb, nb ∈ getNeighborMap env c b → φ nb.cell = neighborCoordinates (φ c) nb.position

/-- The cell map produced by the 3×1 expansion in the counterexample
environment `badEnv` (the value of `expandFromCell badEnv 3 1 0 20 0`). -/
def badGrid : CellMap :=
  [(1, ⟨0, 1, (1, 0)⟩), (2, ⟨1, 2, (2, 0)⟩), (0, ⟨5, 0, (0, 0)⟩)]

/-- Rings of the C8 counterexample environment: cell 2 is simultaneously
"north of" the seed 0 (position 0) and "west of" cell 1 (position 4) — a
path-dependent geometry of the kind bearing re-anchoring can produce. -/
def badRing (n : Nat) : List Nat :=
  if n = 0 then [2, 1, 3, 4, 5, 6]
  else if n = 1 then [7, 0, 8, 9, 2, 10]
  else if n = 5 then [11, 0, 12, 13, 14, 15]
  else []

/-- The C8 counterexample environment: bearings `60° × (index in ring)`, so
positions equal ring indices; no pentagons. -/
def badEnv : Env :=
  ⟨fun _ => false, badRing, fun c n => 60 * (((badRing c).indexOf n : Nat) : ℚ)⟩

end Hexmaps

namespace HexmapsSpec

/-- Modelled from the spec's shift table in §4.3 (`Δj`, `Δi` even row,
`Δi` odd row), row by row as printed. -/
def specShiftRow : Nat → Int × Int × Int
  | 0 => (1, 0, 1)
  | 1 => (0, 1, 1)
  | 2 => (-1, 0, 1)
  | 3 => (-1, -1, 0)
  | 4 => (0, -1, -1)
  | 5 => (1, -1, 0)
  | _ => (0, 0, 0)

/-- The spec's `Δj` for position `p`. -/
def specDJ (p : Nat) : Int := (specShiftRow p).1

/-- The spec's `Δi` for position `p` on a row of parity `jEven`. -/
def specDI (p : Nat) (jEven : Bool) : Int :=
  if jEven then (specShiftRow p).2.1 else (specShiftRow p).2.2

end HexmapsSpec

open Hexmaps HexmapsSpec

/-- C1: During `Grid.expand_from_cell`, for every position `p ∈ 0..5` and every
row parity, the neighbor at position `p` of a cell at offset coordinates
`(i, j)` is assigned `(i + Δi, j + Δj)` where `(Δj, Δi even, Δi odd)` is
exactly the spec's shift table: `Δj = +1, 0, -1, -1, 0, +1` for `p = 0..5`,
`Δi` on an even row `= 0, +1, 0, -1, -1, -1` and on an odd row
`= +1, +1, +1, 0, -1, 0`. -/
theorem expand_shift_matches_spec_table (p : Fin 6) (i j : Int) :
    neighborCoordinates (i, j) p.val =
      (i + specDI p.val (j.emod 2 = 0 : Bool), j + specDJ p.val) := by
  unfold neighborCoordinates specDI specDJ specShiftRow shiftJ shiftIEven shiftIOdd
  fin_cases p <;> rcases h : decide (j.emod 2 = 0) with _ | _ <;>
    simp_all [decide_eq_true_eq, decide_eq_false_iff_not]

/-- Lemma: `key_to_coordinates` inverts `coordinates_to_key` whenever `0 ≤ i < w`
(the row index `j` may be arbitrary). -/
theorem keyToCoordinates_coordinatesToKey (w : Nat) (i j : Int)
    (hi : 0 ≤ i) (hi' : i < (w : Int)) :
    keyToCoordinates w (coordinatesToKey w (i, j)) = (i, j) := by
  have hw : 0 < (w : Int) := lt_of_le_of_lt hi hi'
  unfold keyToCoordinates coordinatesToKey
  rw [Int.fmod_eq_emod _ (le_of_lt hw), Int.fdiv_eq_ediv _ (le_of_lt hw)]
  simp only [Prod.mk.injEq]
  constructor
  · simpa [Int.add_mul_emod_self_left] using Int.emod_eq_of_lt hi hi'
  · rw [Int.add_mul_ediv_left _ _ (ne_of_gt hw), Int.ediv_eq_zero_of_lt hi hi']
    simp

/-- On in-bounds coordinate pairs, `coordinates_to_key` is injective. -/
theorem coordinatesToKey_inj {w h : Nat} {c d : Int × Int}
    (hc : InBounds w h c) (hd : InBounds w h d)
    (he : coordinatesToKey w c = coordinatesToKey w d) : c = d := by
  have h1 := keyToCoordinates_coordinatesToKey w c.1 c.2 hc.1 hc.2.1
  have h2 := keyToCoordinates_coordinatesToKey w d.1 d.2 hd.1 hd.2.1
  calc c = keyToCoordinates w (coordinatesToKey w c) := by rw [h1]
    _ = keyToCoordinates w (coordinatesToKey w d) := by rw [he]
    _ = d := by rw [h2]

/-- C6: for `0 < w`, `0 ≤ i < w` and `0 ≤ j < h`,
`key_to_coordinates (coordinates_to_key (i, j)) = (i, j)`:
`(i + w*j) % w = i` and `(i + w*j) // w = j` under Python floor
division/modulo. -/
theorem key_coordinates_bijection (w h : Nat) (i j : Int)
    (hi : 0 ≤ i) (hi' : i < (w : Int)) (hj : 0 ≤ j) (hj' : j < (h : Int)) :
    keyToCoordinates w (coordinatesToKey w (i, j)) = (i, j) :=
  keyToCoordinates_coordinatesToKey w i j hi hi' 

/-- Witness for C6 at `w = 5`, `h = 2`, `(i, j) = (3, 1)`. -/
theorem key_coordinates_bijection_witness :
    keyToCoordinates 5 (coordinatesToKey 5 (3, 1)) = (3, 1) :=
  key_coordinates_bijection 5 2 3 1 (by decide) (by decide) (by decide) (by decide)

/-! ### C2: neighbor ordering -/

/-- The angle written by `get_neighbor_map` is in `[0, 360)`: range of the
Python float modulo with positive modulus. -/
theorem fmod360_mem_Ico (x : ℚ) : 0 ≤ fmod360 x ∧ fmod360 x < 360 := by
  have hfl : ((x / 360).floor : ℤ) = ⌊x / 360⌋ := (Rat.floor_def' _).trans Rat.floor_def.symm
  have h1 : ((⌊x / 360⌋ : ℤ) : ℚ) ≤ x / 360 := Int.floor_le _
  have h2 : x / 360 < (⌊x / 360⌋ : ℤ) + 1 := Int.lt_floor_add_one _
  have h3 : (360 : ℚ) * (x / 360) = x := by ring
  unfold fmod360
  rw [hfl]
  constructor <;> nlinarith [h1, h2]

/-- The positions of `get_neighbor_map` are `0, 1, …, N-1` in order (the
enumeration indices of the sorted list). -/
theorem getNeighborMap_positions (env : Env) (c : Nat) (b : ℚ) :
    (getNeighborMap env c b).map (fun nb => nb.position) =
      List.range (getNeighborMap env c b).length := by
  unfold getNeighborMap
  rw [List.map_map]
  have h1 : ((fun nb : Neighbor => nb.position) ∘ fun p : Nat × (ℚ × Nat) =>
      (⟨p.2.2, p.1, p.2.1⟩ : Neighbor)) = Prod.fst := rfl
  rw [h1, List.enum_map_fst, List.length_map, List.enum_length]

/-- C2: for every cell and reference bearing, `Cell.get_neighbor_map` (the
spec's `order_neighbors`) returns the ring cells sorted ascending by
`angle = (bearing_to(neighbor) - reference) mod 360`, assigning positions
`0..N-1` in sorted order with `N = 5` for a pentagon cell and `6` otherwise
(the ring size reported by h3); each `Neighbor` carries its assigned position
and that angle, and two calls with the same arguments return identical
results (the embedding is a pure function). -/
theorem neighbor_map_ordering (env : Env) (c : Nat) (b : ℚ)
    (hring : (env.ring c).length = if env.isPentagon c = true then 5 else 6) :
    (getNeighborMap env c b).length = (if env.isPentagon c = true then 5 else 6) ∧
    (getNeighborMap env c b).map (fun nb => nb.position) =
      List.range (getNeighborMap env c b).length ∧
    List.Sorted (· ≤ ·) ((getNeighborMap env c b).map (fun nb => nb.angle)) ∧
    ((getNeighborMap env c b).map (fun nb => nb.cell)).Perm (env.ring c) ∧
    (∀ nb ∈ getNeighborMap env c b, nb.angle = fmod360 (getBearing env c nb.cell - b)) ∧
    getNeighborMap env c b = getNeighborMap env c b := by
  set r : (ℚ × Nat) → (ℚ × Nat) → Prop := fun x y => x.1 ≤ y.1 with hr
  set angles : List (ℚ × Nat) :=
    (env.ring c).map (fun n => (fmod360 (getBearing env c n - b), n)) with hangles
  have hmap : getNeighborMap env c b =
      (angles.insertionSort r).enum.map (fun p => ⟨p.2.2, p.1, p.2.1⟩) := rfl
  have hlen : (getNeighborMap env c b).length = (env.ring c).length := by
    rw [hmap, List.length_map, List.enum_length, List.length_insertionSort,
      hangles, List.length_map]
  refine ⟨hlen.trans hring, getNeighborMap_positions env c b, ?_, ?_, ?_, rfl⟩
  · rw [hmap, List.map_map]
    have h1 : ((fun nb : Neighbor => nb.angle) ∘ fun p : Nat × (ℚ × Nat) =>
        (⟨p.2.2, p.1, p.2.1⟩ : Neighbor)) = Prod.fst ∘ Prod.snd := rfl
    rw [h1, ← List.map_map, List.enum_map_snd]
    haveI : IsTotal (ℚ × Nat) r := ⟨fun a b' => le_total a.1 b'.1⟩
    haveI : IsTrans (ℚ × Nat) r := ⟨fun _ _ _ hab hbc => le_trans hab hbc⟩
    exact List.Pairwise.map Prod.fst (fun _ _ hxy => hxy)
      (List.sorted_insertionSort r angles)
  · rw [hmap, List.map_map]
    have h1 : ((fun nb : Neighbor => nb.cell) ∘ fun p : Nat × (ℚ × Nat) =>
        (⟨p.2.2, p.1, p.2.1⟩ : Neighbor)) = Prod.snd ∘ Prod.snd := rfl
    rw [h1, ← List.map_map, List.enum_map_snd]
    have h2 := (List.perm_insertionSort r angles).map Prod.snd
    refine h2.trans ?_
    rw [hangles, List.map_map]
    have h3 : (Prod.snd ∘ fun n => (fmod360 (getBearing env c n - b), n)) = id := rfl
    rw [h3, List.map_id]
  · intro nb hnb
    rw [hmap] at hnb
    obtain ⟨p, hp, rfl⟩ := List.mem_map.1 hnb
    have hmem : p.2 ∈ angles.insertionSort r := List.snd_mem_of_mem_enum hp
    rw [List.mem_insertionSort, hangles] at hmem
    obtain ⟨n, _, hn⟩ := List.mem_map.1 hmem
    simp only [← hn]

/-- Witness for C2 on the flat environment at the cell of offset `(2, 1)`
with reference bearing `0`. -/
theorem neighbor_map_ordering_witness :
    (getNeighborMap flatEnv (encodeCell (2, 1)) 0).length = 6 ∧
    (getNeighborMap flatEnv (encodeCell (2, 1)) 0).map (fun nb => nb.position) =
      List.range 6 := by
  have h := neighbor_map_ordering flatEnv (encodeCell (2, 1)) 0 (by with_unfolding_all rfl)
  have hpent : (if flatEnv.isPentagon (encodeCell (2, 1)) = true then 5 else 6) = 6 := rfl
  rw [hpent] at h
  exact ⟨h.1, by rw [← h.1]; exact h.2.1⟩

/-! ### C3: bearing normalization -/

/-- C3 counterexample: `Cell.get_bearing` returns the solver's azimuth
unchanged, so for a due-west pair it returns `-90`, which is not in
`[0, 360)` — the claim's normalization does not happen in `get_bearing`. -/
theorem get_bearing_not_normalized :
    getBearing westEnv 0 1 = -90 ∧ ¬ (0 ≤ getBearing westEnv 0 1 ∧ getBearing westEnv 0 1 < 360) := by
  refine ⟨rfl, fun h => ?_⟩
  have h1 := h.1
  rw [show getBearing westEnv 0 1 = -90 from rfl] at h1
  norm_num at h1

/-- C3 amended: `Cell.get_bearing` returns the forward geodesic azimuth of
`WGS84_GEOD.inv` between the two cells' center points unchanged (hence in the
solver's `(-180, 180]` convention, not normalized); the angles derived from it
in `get_neighbor_map` are the ones normalized to `[0, 360)`, by `% 360.0`. -/
theorem get_bearing_raw_and_angles_normalized (env : Env) (a b' : Nat) (bear : ℚ) :
    getBearing env a b' = env.bearing a b' ∧
    (-180 < env.bearing a b' ∧ env.bearing a b' ≤ 180 →
      -180 < getBearing env a b' ∧ getBearing env a b' ≤ 180) ∧
    ∀ nb ∈ getNeighborMap env a bear, 0 ≤ nb.angle ∧ nb.angle < 360 := by
  refine ⟨rfl, fun h => h, fun nb hnb => ?_⟩
  obtain ⟨p, hp, rfl⟩ := List.mem_map.1 hnb
  have hmem : p.2 ∈ _ := List.snd_mem_of_mem_enum hp
  rw [List.mem_insertionSort] at hmem
  obtain ⟨n, _, hn⟩ := List.mem_map.1 hmem
  have := fmod360_mem_Ico (getBearing env a n - bear)
  simp only [← hn]
  exact this

/-- Witness for C3 amended, discharging the range hypothesis of the middle
conjunct at the flat environment. -/
theorem get_bearing_raw_and_angles_normalized_witness :
    -180 < getBearing flatEnv (encodeCell (0, 0)) (encodeCell (1, 0)) ∧
    getBearing flatEnv (encodeCell (0, 0)) (encodeCell (1, 0)) ≤ 180 :=
  (get_bearing_raw_and_angles_normalized flatEnv (encodeCell (0, 0)) (encodeCell (1, 0)) 0).2.1
    (by constructor <;> with_unfolding_all decide)

/-! ### Dict and frontier helper lemmas -/

/-- The assigned entry is present after a dict assignment. -/
theorem mapInsert_mem_self (m : CellMap) (k : Int) (v : GridCell) :
    (k, v) ∈ mapInsert m k v := by
  unfold mapInsert
  by_cases hany : m.any (fun e => e.1 = k) = true
  · rw [if_pos hany]
    obtain ⟨e, he, hek⟩ := List.any_eq_true.1 hany
    refine List.mem_map.2 ⟨e, he, ?_⟩
    rw [if_pos (of_decide_eq_true hek)]
  · rw [if_neg hany]
    exact List.mem_append_right _ (List.mem_singleton.2 rfl)

/-- Every entry after a dict assignment is the new entry or an old one. -/
theorem mapInsert_mem (m : CellMap) (k : Int) (v : GridCell) {e : Int × GridCell}
    (he : e ∈ mapInsert m k v) : e = (k, v) ∨ e ∈ m := by
  unfold mapInsert at he
  by_cases hany : m.any (fun e => e.1 = k) = true
  · rw [if_pos hany] at he
    obtain ⟨e0, he0, heq⟩ := List.mem_map.1 he
    by_cases h0 : e0.1 = k
    · rw [if_pos h0] at heq; exact Or.inl heq.symm
    · rw [if_neg h0] at heq; exact Or.inr (heq ▸ he0)
  · rw [if_neg hany] at he
    rcases List.mem_append.1 he with h | h
    · exact Or.inr h
    · exact Or.inl (List.mem_singleton.1 h)

/-- A dict assignment leaves entries with other keys in place. -/
theorem mapInsert_mem_of_ne {m : CellMap} {k : Int} {v : GridCell} {e : Int × GridCell}
    (he : e ∈ m) (hne : e.1 ≠ k) : e ∈ mapInsert m k v := by
  unfold mapInsert
  by_cases hany : m.any (fun e => e.1 = k) = true
  · rw [if_pos hany]
    have : (if e.1 = k then (k, v) else e) = e := by rw [if_neg hne]
    exact this ▸ List.mem_map_of_mem _ he
  · rw [if_neg hany]
    exact List.mem_append_left _ he

/-- Dict assignment preserves distinctness of the keys. -/
theorem mapInsert_keys_nodup {m : CellMap} {k : Int} {v : GridCell}
    (hm : (m.map Prod.fst).Nodup) : ((mapInsert m k v).map Prod.fst).Nodup := by
  unfold mapInsert
  by_cases hany : m.any (fun e => e.1 = k) = true
  · rw [if_pos hany, List.map_map]
    have : (Prod.fst ∘ fun e : Int × GridCell => if e.1 = k then (k, v) else e) =
        Prod.fst := by
      funext e
      by_cases h0 : e.1 = k
      · simp [h0]
      · simp [h0]
    rw [this]
    exact hm
  · rw [if_neg hany, List.map_append]
    refine List.Nodup.append hm (List.nodup_singleton _) ?_
    intro x hx hk
    simp only [List.map_cons, List.map_nil, List.mem_singleton] at hk
    subst hk
    obtain ⟨e, he, hek⟩ := List.mem_map.1 hx
    rw [Bool.not_eq_true, List.any_eq_false] at hany
    have := hany e he
    simp only [decide_eq_true_eq] at this
    exact this hek

/-- A dict read misses exactly when no entry has the key. -/
theorem mapFind_eq_none_iff (m : CellMap) (k : Int) :
    mapFind m k = none ↔ ∀ e ∈ m, e.1 ≠ k := by
  unfold mapFind
  rw [Option.map_eq_none', List.find?_eq_none]
  constructor
  · intro h e he
    exact fun hk => absurd (decide_eq_true hk) (by simpa using h e he)
  · intro h e he
    simpa using h e he

/-- With distinct keys, a dict read returns the entry holding the key. -/
theorem mapFind_eq_some_of_mem {m : CellMap} {k : Int} {v : GridCell}
    (hnd : (m.map Prod.fst).Nodup) (hmem : (k, v) ∈ m) : mapFind m k = some v := by
  induction m with
  | nil => cases hmem
  | cons e t ih =>
    rw [List.map_cons, List.nodup_cons] at hnd
    unfold mapFind
    rcases List.mem_cons.1 hmem with h | h
    · subst h
      rw [List.find?_cons_of_pos _ (by simp)]
      rfl
    · have hek : e.1 ≠ k := by
        intro hkk
        apply hnd.1
        have hmem2 : (k, v).1 ∈ List.map Prod.fst t := List.mem_map_of_mem Prod.fst h
        simpa [hkk] using hmem2
      rw [List.find?_cons_of_neg _ (by simp [hek])]
      have := ih hnd.2 h
      unfold mapFind at this
      exact this

/-- The visited set only grows during the neighbor loop. -/
theorem processNeighbors_visited_mono (w h : Nat) (co : Int × Int) :
    ∀ (nbrs : List Neighbor) (v : List Nat) (q : List QEntry) (x : Nat),
      x ∈ v → x ∈ (processNeighbors w h co nbrs v q).1 := by
  intro nbrs
  induction nbrs with
  | nil => intro v q x hx; exact hx
  | cons nb t ih =>
    intro v q x hx
    by_cases h1 : nb.cell ∈ v
    · rw [processNeighbors, if_pos h1]; exact ih v q x hx
    · by_cases h2 : InBounds w h (neighborCoordinates co nb.position)
      · rw [processNeighbors, if_neg h1]
        simp only [if_pos h2]
        exact ih _ _ x (List.mem_cons_of_mem _ hx)
      · rw [processNeighbors, if_neg h1]
        simp only [if_neg h2]
        exact ih _ _ x (List.mem_cons_of_mem _ hx)

/-- Cells added to the visited set by the neighbor loop are neighbor cells. -/
theorem processNeighbors_visited_mem (w h : Nat) (co : Int × Int) :
    ∀ (nbrs : List Neighbor) (v : List Nat) (q : List QEntry) (x : Nat),
      x ∈ (processNeighbors w h co nbrs v q).1 → x ∈ v ∨ ∃ nb ∈ nbrs, x = nb.cell := by
  intro nbrs
  induction nbrs with
  | nil => intro v q x hx; exact Or.inl hx
  | cons nb t ih =>
    intro v q x hx
    have step : ∀ v' q', x ∈ (processNeighbors w h co t v' q').1 →
        x ∈ v' ∨ ∃ nb' ∈ t, x = nb'.cell := fun v' q' => ih v' q' x
    by_cases h1 : nb.cell ∈ v
    · rw [processNeighbors, if_pos h1] at hx
      rcases step v q hx with h | ⟨nb', hnb', rfl⟩
      · exact Or.inl h
      · exact Or.inr ⟨nb', List.mem_cons_of_mem _ hnb', rfl⟩
    · rw [processNeighbors, if_neg h1] at hx
      by_cases h2 : InBounds w h (neighborCoordinates co nb.position) <;>
        simp only [if_pos, if_neg, h2, if_true, if_false] at hx
      all_goals {
        rcases step _ _ hx with h | ⟨nb', hnb', rfl⟩
        · rcases List.mem_cons.1 h with h | h
          · exact Or.inr ⟨nb, List.mem_cons_self _ _, h⟩
          · exact Or.inl h
        · exact Or.inr ⟨nb', List.mem_cons_of_mem _ hnb', rfl⟩
      }

/-- Frontier entries survive the neighbor loop. -/
theorem processNeighbors_queue_mono (w h : Nat) (co : Int × Int) :
    ∀ (nbrs : List Neighbor) (v : List Nat) (q : List QEntry) (e : QEntry),
      e ∈ q → e ∈ (processNeighbors w h co nbrs v q).2 := by
  intro nbrs
  induction nbrs with
  | nil => intro v q e he; exact he
  | cons nb t ih =>
    intro v q e he
    by_cases h1 : nb.cell ∈ v
    · rw [processNeighbors, if_pos h1]; exact ih v q e he
    · by_cases h2 : InBounds w h (neighborCoordinates co nb.position)
      · rw [processNeighbors, if_neg h1]
        simp only [if_pos h2]
        exact ih _ _ e (List.mem_cons_of_mem _ he)
      · rw [processNeighbors, if_neg h1]
        simp only [if_neg h2]
        exact ih _ _ e he

/-- Every frontier entry after the neighbor loop is an old entry or an
in-bounds translated neighbor of the current cell. -/
theorem processNeighbors_queue_mem (w h : Nat) (co : Int × Int) :
    ∀ (nbrs : List Neighbor) (v : List Nat) (q : List QEntry) (e : QEntry),
      e ∈ (processNeighbors w h co nbrs v q).2 →
        e ∈ q ∨ (InBounds w h e.1 ∧ e.2 ∈ (processNeighbors w h co nbrs v q).1 ∧
          ∃ nb ∈ nbrs, e.2 = nb.cell ∧ e.1 = neighborCoordinates co nb.position) := by
  intro nbrs
  induction nbrs with
  | nil => intro v q e he; exact Or.inl he
  | cons nb t ih =>
    intro v q e he
    by_cases h1 : nb.cell ∈ v
    · rw [processNeighbors, if_pos h1] at he ⊢
      rcases ih v q e he with h | ⟨hb, hv, nb', hnb', h2, h3⟩
      · exact Or.inl h
      · exact Or.inr ⟨hb, hv, nb', List.mem_cons_of_mem _ hnb', h2, h3⟩
    · by_cases h2 : InBounds w h (neighborCoordinates co nb.position)
      · rw [processNeighbors, if_neg h1] at he ⊢
        simp only [if_pos h2] at he ⊢
        rcases ih _ _ e he with hcase | ⟨hb, hv, nb', hnb', h3, h4⟩
        · rcases List.mem_cons.1 hcase with hc2 | hc2
          · subst hc2
            refine Or.inr ⟨h2, ?_, nb, List.mem_cons_self _ _, rfl, rfl⟩
            exact processNeighbors_visited_mono w h co t _ _ _ (List.mem_cons_self _ _)
          · exact Or.inl hc2
        · exact Or.inr ⟨hb, hv, nb', List.mem_cons_of_mem _ hnb', h3, h4⟩
      · rw [processNeighbors, if_neg h1] at he ⊢
        simp only [if_neg h2] at he ⊢
        rcases ih _ _ e he with hcase | ⟨hb, hv, nb', hnb', h3, h4⟩
        · exact Or.inl hcase
        · exact Or.inr ⟨hb, hv, nb', List.mem_cons_of_mem _ hnb', h3, h4⟩

/-- The neighbor loop keeps the visited set duplicate-free. -/
theorem processNeighbors_visited_nodup (w h : Nat) (co : Int × Int) :
    ∀ (nbrs : List Neighbor) (v : List Nat) (q : List QEntry),
      v.Nodup → (processNeighbors w h co nbrs v q).1.Nodup := by
  intro nbrs
  induction nbrs with
  | nil => intro v q hv; exact hv
  | cons nb t ih =>
    intro v q hv
    by_cases h1 : nb.cell ∈ v
    · rw [processNeighbors, if_pos h1]; exact ih v q hv
    · have hv' : (nb.cell :: v).Nodup := List.nodup_cons.2 ⟨h1, hv⟩
      by_cases h2 : InBounds w h (neighborCoordinates co nb.position)
      · rw [processNeighbors, if_neg h1]
        simp only [if_pos h2]
        exact ih _ _ hv'
      · rw [processNeighbors, if_neg h1]
        simp only [if_neg h2]
        exact ih _ _ hv'

/-- The neighbor loop enqueues at most one entry per newly visited cell. -/
theorem processNeighbors_count (w h : Nat) (co : Int × Int) :
    ∀ (nbrs : List Neighbor) (v : List Nat) (q : List QEntry),
      (processNeighbors w h co nbrs v q).2.length + v.length ≤
        q.length + (processNeighbors w h co nbrs v q).1.length := by
  intro nbrs
  induction nbrs with
  | nil => intro v q; simp only [processNeighbors]; omega
  | cons nb t ih =>
    intro v q
    by_cases h1 : nb.cell ∈ v
    · rw [processNeighbors, if_pos h1]; exact ih v q
    · by_cases h2 : InBounds w h (neighborCoordinates co nb.position)
      · rw [processNeighbors, if_neg h1]
        simp only [if_pos h2]
        have := ih (nb.cell :: v) ((neighborCoordinates co nb.position, nb.cell) :: q)
        simp only [List.length_cons] at this ⊢
        omega
      · rw [processNeighbors, if_neg h1]
        simp only [if_neg h2]
        have := ih (nb.cell :: v) q
        simp only [List.length_cons] at this ⊢
        omega

/-- After the neighbor loop, every neighbor cell is visited. -/
theorem processNeighbors_closure (w h : Nat) (co : Int × Int) :
    ∀ (nbrs : List Neighbor) (v : List Nat) (q : List QEntry) (nb : Neighbor),
      nb ∈ nbrs → nb.cell ∈ (processNeighbors w h co nbrs v q).1 := by
  intro nbrs
  induction nbrs with
  | nil => intro v q nb h; cases h
  | cons nb0 t ih =>
    intro v q nb hnb
    rcases List.mem_cons.1 hnb with hcase | hcase
    · subst hcase
      by_cases h1 : nb.cell ∈ v
      · rw [processNeighbors, if_pos h1]
        exact processNeighbors_visited_mono w h co t v q _ h1
      · by_cases h2 : InBounds w h (neighborCoordinates co nb.position)
        · rw [processNeighbors, if_neg h1]
          simp only [if_pos h2]
          exact processNeighbors_visited_mono w h co t _ _ _ (List.mem_cons_self _ _)
        · rw [processNeighbors, if_neg h1]
          simp only [if_neg h2]
          exact processNeighbors_visited_mono w h co t _ _ _ (List.mem_cons_self _ _)
    · by_cases h1 : nb0.cell ∈ v
      · rw [processNeighbors, if_pos h1]; exact ih v q nb hcase
      · by_cases h2 : InBounds w h (neighborCoordinates co nb0.position)
        · rw [processNeighbors, if_neg h1]
          simp only [if_pos h2]
          exact ih _ _ nb hcase
        · rw [processNeighbors, if_neg h1]
          simp only [if_neg h2]
          exact ih _ _ nb hcase

/-- An empty deque is exactly one that `pop` fails on. -/
theorem popRight_eq_none_iff {α : Type} {q : List α} : popRight q = none ↔ q = [] := by
  unfold popRight
  cases hq : q.getLast? with
  | none => simpa using List.getLast?_eq_none_iff.1 hq
  | some x =>
    simp only []
    constructor
    · intro hc; cases hc
    · intro hc; subst hc; cases hq

/-- Popping the right end splits off the last element. -/
theorem popRight_eq_some {α : Type} {q : List α} {x : α} {r : List α}
    (hp : popRight q = some (x, r)) : q = r ++ [x] := by
  unfold popRight at hp
  cases hq : q.getLast? with
  | none => rw [hq] at hp; cases hp
  | some y =>
    rw [hq] at hp
    have h1 : y = x ∧ q.dropLast = r := by
      constructor <;> [exact congrArg (fun p => (Prod.fst p)) (Option.some.inj hp);
        exact congrArg (fun p => (Prod.snd p)) (Option.some.inj hp)]
    obtain ⟨rfl, rfl⟩ := h1
    exact (List.dropLast_append_getLast? y hq).symm

/-- Loop-invariant rule for the expansion loop: an invariant preserved by
each non-pentagon iteration holds, with an empty frontier, for the map a
successful run returns. -/
theorem expandLoop_ok_inv (env : Env) (w h : Nat) (b : ℚ)
    (Inv : CellMap → List QEntry → List Nat → Prop)
    (hstep : ∀ cm q v coords cell q', Inv cm q v →
      popRight q = some (((coords, cell) : QEntry), q') →
      env.isPentagon cell = false →
      Inv (mapInsert cm (coordinatesToKey w coords) ⟨cell, coordinatesToKey w coords, coords⟩)
        (processNeighbors w h coords (getNeighborMap env cell b) v q').2
        (processNeighbors w h coords (getNeighborMap env cell b) v q').1) :
    ∀ (fuel : Nat) (cm : CellMap) (q : List QEntry) (v : List Nat) (m : CellMap),
      Inv cm q v → expandLoop env w h b fuel cm q v = some (.ok m) →
      ∃ v', Inv m [] v' := by
  intro fuel
  induction fuel with
  | zero =>
    intro cm q v m _ hrun
    simp only [expandLoop] at hrun
    cases hrun
  | succ fuel ih =>
    intro cm q v m hinv hrun
    rw [expandLoop] at hrun
    cases hpop : popRight q with
    | none =>
      rw [hpop] at hrun
      simp only [Option.some.injEq] at hrun
      have hcm : cm = m := by
        have := congrArg (fun r : Except Unit CellMap =>
          match r with | .ok x => x | .error _ => cm) hrun
        simpa using this
      subst hcm
      exact ⟨v, popRight_eq_none_iff.1 hpop ▸ hinv⟩
    | some pr =>
      obtain ⟨⟨coords, cell⟩, q'⟩ := pr
      rw [hpop] at hrun
      by_cases hpent : env.isPentagon cell = true
      · simp only [hpent, if_true] at hrun
        simp only [Option.some.injEq] at hrun
        cases hrun
      · simp only [Bool.not_eq_true] at hpent
        simp only [hpent, Bool.false_eq_true, if_false] at hrun
        exact ih _ _ _ m (hstep cm q v coords cell q' hinv hpop hpent) hrun

/-- Helper: the literal `flatGrid` is what the flat 5×2 expansion returns. -/
theorem flatGrid_run :
    expandFromCell flatEnv 5 2 0 30 (encodeCell (2, 1)) = some (.ok flatGrid) := by
  with_unfolding_all rfl

/-! ### C5: pentagon rejection -/

/-- Helper: every cell stored by a successful expansion passed the pentagon
check (it is stored right after `cell.is_pentagon` was found false). -/
theorem expandLoop_no_pentagon (env : Env) (w h : Nat) (b : ℚ)
    (fuel : Nat) (cm : CellMap) (q : List QEntry) (v : List Nat) (m : CellMap)
    (hcm : ∀ e ∈ cm, env.isPentagon e.2.cell = false)
    (hrun : expandLoop env w h b fuel cm q v = some (.ok m)) :
    ∀ e ∈ m, env.isPentagon e.2.cell = false := by
  have := expandLoop_ok_inv env w h b
    (fun cm _ _ => ∀ e ∈ cm, env.isPentagon e.2.cell = false)
    (fun cm q v coords cell q' hinv hpop hpent e he => by
      rcases mapInsert_mem _ _ _ he with hcase | hcase
      · subst hcase; exact hpent
      · exact hinv e hcase)
    fuel cm q v m hcm hrun
  obtain ⟨v', hv'⟩ := this
  exact hv'

/-- C5: if the expansion dequeues a pentagon cell — in particular when the
seed itself is one — the whole run fails with the pentagon error, and a
successful expansion never stores a pentagon cell. -/
theorem pentagon_rejection (env : Env) (w h : Nat) (b : ℚ) (fuel seed : Nat) :
    (∀ m, expandFromCell env w h b fuel seed = some (.ok m) →
      ∀ e ∈ m, env.isPentagon e.2.cell = false) ∧
    (env.isPentagon seed = true → 0 < fuel →
      expandFromCell env w h b fuel seed = some (.error ())) := by
  constructor
  · intro m hm
    exact expandLoop_no_pentagon env w h b fuel [] _ _ m (fun e he => by cases he) hm
  · intro hpent hfuel
    obtain ⟨fuel', rfl⟩ : ∃ f, fuel = f + 1 := ⟨fuel - 1, by omega⟩
    unfold expandFromCell
    rw [expandLoop]
    have hpop : popRight [((seedCoordinates w h, seed) : QEntry)] =
        some ((seedCoordinates w h, seed), []) := rfl
    rw [hpop]
    simp [hpent]

/-- Witness for C5: a pentagon seed aborts with the error, and the concrete
flat 5×2 expansion (a successful one) stores no pentagon. -/
theorem pentagon_rejection_witness :
    expandFromCell pentEnv 3 1 0 5 7 = some (.error ()) ∧
    (∀ e ∈ flatGrid, flatEnv.isPentagon e.2.cell = false) :=
  ⟨(pentagon_rejection pentEnv 3 1 0 5 7).2 rfl (by decide),
   (pentagon_rejection flatEnv 5 2 0 30 (encodeCell (2, 1))).1 flatGrid flatGrid_run⟩

/-! ### C7: bounds containment and key consistency -/

/-- The seed coordinates `(w // 2, h // 2)` are in bounds for positive
dimensions. -/
theorem seedCoordinates_inBounds {w h : Nat} (hw : 0 < w) (hh : 0 < h) :
    InBounds w h (seedCoordinates w h) := by
  unfold InBounds seedCoordinates
  dsimp only
  refine ⟨Int.natCast_nonneg _, ?_, Int.natCast_nonneg _, ?_⟩
  · exact_mod_cast Nat.div_lt_self hw one_lt_two
  · exact_mod_cast Nat.div_lt_self hh one_lt_two

/-- Helper: the invariant behind C7 — stored entries are in bounds with
consistent keys and duplicate-free key lists, and the seed's key holds an
entry at the central coordinates. -/
theorem expandLoop_bounds_inv (env : Env) (w h : Nat) (b : ℚ)
    (hw : 0 < w) (hh : 0 < h) (fuel seed : Nat) (m : CellMap)
    (hrun : expandFromCell env w h b fuel seed = some (.ok m)) :
    (∀ e ∈ m, InBounds w h e.2.coordinates ∧
      e.2.key = coordinatesToKey w e.2.coordinates ∧ e.1 = e.2.key) ∧
    (m.map Prod.fst).Nodup ∧
    ∃ e ∈ m, e.1 = coordinatesToKey w (seedCoordinates w h) ∧
      e.2.coordinates = seedCoordinates w h := by
  have hseedb : InBounds w h (seedCoordinates w h) := seedCoordinates_inBounds hw hh
  have hstep : ∀ cm q v coords cell q',
      ((∀ e ∈ q, InBounds w h e.1) ∧
        (∀ e ∈ cm, InBounds w h e.2.coordinates ∧
          e.2.key = coordinatesToKey w e.2.coordinates ∧ e.1 = e.2.key) ∧
        (cm.map Prod.fst).Nodup ∧
        ((cm = [] ∧ q = [(seedCoordinates w h, seed)]) ∨
          ∃ e ∈ cm, e.1 = coordinatesToKey w (seedCoordinates w h) ∧
            e.2.coordinates = seedCoordinates w h)) →
      popRight q = some (((coords, cell) : QEntry), q') →
      env.isPentagon cell = false →
      ((∀ e ∈ (processNeighbors w h coords (getNeighborMap env cell b) v q').2,
          InBounds w h e.1) ∧
        (∀ e ∈ mapInsert cm (coordinatesToKey w coords)
            ⟨cell, coordinatesToKey w coords, coords⟩,
          InBounds w h e.2.coordinates ∧
          e.2.key = coordinatesToKey w e.2.coordinates ∧ e.1 = e.2.key) ∧
        ((mapInsert cm (coordinatesToKey w coords)
            ⟨cell, coordinatesToKey w coords, coords⟩).map Prod.fst).Nodup ∧
        ((mapInsert cm (coordinatesToKey w coords)
            ⟨cell, coordinatesToKey w coords, coords⟩ = [] ∧
          (processNeighbors w h coords (getNeighborMap env cell b) v q').2 =
            [(seedCoordinates w h, seed)]) ∨
          ∃ e ∈ mapInsert cm (coordinatesToKey w coords)
            ⟨cell, coordinatesToKey w coords, coords⟩,
            e.1 = coordinatesToKey w (seedCoordinates w h) ∧
            e.2.coordinates = seedCoordinates w h)) := by
    rintro cm q v coords cell q' ⟨hq, hcm, hnd, hseed⟩ hpop hpent
    have hqsplit := popRight_eq_some hpop
    have hcoordsb : InBounds w h coords := by
      have hmem : ((coords, cell) : QEntry) ∈ q := by
        rw [hqsplit]; exact List.mem_append_right _ (List.mem_singleton.2 rfl)
      exact hq _ hmem
    refine ⟨?_, ?_, mapInsert_keys_nodup hnd, ?_⟩
    · intro e he
      rcases processNeighbors_queue_mem w h coords _ v q' e he with hcase | ⟨hb, _, _⟩
      · exact hq e (by rw [hqsplit]; exact List.mem_append_left _ hcase)
      · exact hb
    · intro e he
      rcases mapInsert_mem _ _ _ he with hcase | hcase
      · subst hcase; exact ⟨hcoordsb, rfl, rfl⟩
      · exact hcm e hcase
    · right
      rcases hseed with ⟨hcm0, hq0⟩ | ⟨e, he, hek, hec⟩
      · have h1 : [((seedCoordinates w h, seed) : QEntry)] = q' ++ [(coords, cell)] := by
          rw [← hq0, hqsplit]
        have hco : coords = seedCoordinates w h := by
          cases q' with
          | nil =>
            simp only [List.nil_append, List.cons.injEq, Prod.mk.injEq] at h1
            exact h1.1.1.symm
          | cons a t =>
            exfalso
            have := congrArg List.length h1
            simp only [List.length_singleton, List.length_append, List.length_cons] at this
            omega
        subst hco
        exact ⟨_, mapInsert_mem_self _ _ _, rfl, rfl⟩
      · by_cases hk : e.1 = coordinatesToKey w coords
        · have hkeq : coordinatesToKey w coords = coordinatesToKey w (seedCoordinates w h) := by
            rw [← hk, hek]
          have hco : coords = seedCoordinates w h :=
            coordinatesToKey_inj hcoordsb hseedb hkeq
          refine ⟨(coordinatesToKey w coords,
            ⟨cell, coordinatesToKey w coords, coords⟩), mapInsert_mem_self _ _ _, hkeq, hco⟩
        · exact ⟨e, mapInsert_mem_of_ne he hk, hek, hec⟩
  have hinit : (∀ e ∈ ([((seedCoordinates w h, seed) : QEntry)]), InBounds w h e.1) ∧
      (∀ e ∈ ([] : CellMap), InBounds w h e.2.coordinates ∧
        e.2.key = coordinatesToKey w e.2.coordinates ∧ e.1 = e.2.key) ∧
      (([] : CellMap).map Prod.fst).Nodup ∧
      ((([] : CellMap) = [] ∧ [((seedCoordinates w h, seed) : QEntry)] =
          [(seedCoordinates w h, seed)]) ∨
        ∃ e ∈ ([] : CellMap), e.1 = coordinatesToKey w (seedCoordinates w h) ∧
          e.2.coordinates = seedCoordinates w h) := by
    refine ⟨?_, ?_, List.nodup_nil, Or.inl ⟨rfl, rfl⟩⟩
    · intro e he
      rw [List.mem_singleton] at he
      subst he
      exact hseedb
    · intro e he
      cases he
  obtain ⟨v', hq, hcm, hnd, hseed⟩ := expandLoop_ok_inv env w h b
    (fun cm q v =>
      (∀ e ∈ q, InBounds w h e.1) ∧
      (∀ e ∈ cm, InBounds w h e.2.coordinates ∧
        e.2.key = coordinatesToKey w e.2.coordinates ∧ e.1 = e.2.key) ∧
      (cm.map Prod.fst).Nodup ∧
      ((cm = [] ∧ q = [(seedCoordinates w h, seed)]) ∨
        ∃ e ∈ cm, e.1 = coordinatesToKey w (seedCoordinates w h) ∧
          e.2.coordinates = seedCoordinates w h))
    hstep fuel [] [(seedCoordinates w h, seed)] [seed] m hinit hrun
  refine ⟨hcm, hnd, ?_⟩
  rcases hseed with ⟨_, hq'⟩ | hseed
  · cases hq'
  · exact hseed

/-- C7: after every successful expansion on a `w × h` grid (`w, h > 0`),
every stored GridCell's coordinates `(i, j)` satisfy `0 ≤ i < w` and
`0 ≤ j < h`, its `key` field equals `i + w*j` and equals the mapping key it
is stored under; and the seed key `coordinates_to_key(w // 2, h // 2)` holds
an entry placed at exactly those central coordinates. -/
theorem expansion_bounds_and_keys (env : Env) (w h : Nat) (b : ℚ)
    (fuel seed : Nat) (m : CellMap) (hw : 0 < w) (hh : 0 < h)
    (hrun : expandFromCell env w h b fuel seed = some (.ok m)) :
    (∀ e ∈ m, InBounds w h e.2.coordinates ∧
      e.2.key = coordinatesToKey w e.2.coordinates ∧ e.1 = e.2.key) ∧
    ∃ gc, mapFind m (coordinatesToKey w (seedCoordinates w h)) = some gc ∧
      gc.coordinates = seedCoordinates w h := by
  obtain ⟨hcm, hnd, e, he, hek, hec⟩ := expandLoop_bounds_inv env w h b hw hh fuel seed m hrun
  refine ⟨hcm, e.2, ?_, hec⟩
  have hmem : ((coordinatesToKey w (seedCoordinates w h), e.2) : Int × GridCell) ∈ m := by
    have heq : e = (coordinatesToKey w (seedCoordinates w h), e.2) := Prod.ext hek rfl
    rwa [heq] at he
  exact mapFind_eq_some_of_mem hnd hmem

/-- Witness for C7 on the flat 5×2 expansion. -/
theorem expansion_bounds_and_keys_witness :
    (∀ e ∈ flatGrid, InBounds 5 2 e.2.coordinates ∧
      e.2.key = coordinatesToKey 5 e.2.coordinates ∧ e.1 = e.2.key) ∧
    ∃ gc, mapFind flatGrid (coordinatesToKey 5 (seedCoordinates 5 2)) = some gc ∧
      gc.coordinates = seedCoordinates 5 2 :=
  expansion_bounds_and_keys flatEnv 5 2 0 30 (encodeCell (2, 1)) flatGrid
    (by decide) (by decide) flatGrid_run

/-! ### C4: lookup and NotFound -/

/-- C4 amended: lookup by integer key misses (`NotFound`) iff no GridCell
with that key is stored; lookup by a pair goes through
`coordinates_to_key` with no bounds check, so it misses iff no GridCell with
the translated key exists — for an in-bounds pair on a map satisfying the
expansion invariant this coincides with "no stored cell has exactly those
coordinates", but an out-of-bounds pair may alias the key of a cell stored
at different coordinates (see the counterexample). -/
theorem getitem_notfound (w h : Nat) (m : CellMap) (k : Int) (c : Int × Int)
    (hm : ∀ e ∈ m, InBounds w h e.2.coordinates ∧
      e.1 = coordinatesToKey w e.2.coordinates)
    (hc : InBounds w h c) :
    (getItemKey m k = none ↔ ∀ e ∈ m, e.1 ≠ k) ∧
    (getItemCoordinates w m c = none ↔ ∀ e ∈ m, e.1 ≠ coordinatesToKey w c) ∧
    (getItemCoordinates w m c = none ↔ ∀ e ∈ m, e.2.coordinates ≠ c) := by
  refine ⟨mapFind_eq_none_iff m k, mapFind_eq_none_iff m _, ?_⟩
  unfold getItemCoordinates
  rw [mapFind_eq_none_iff]
  constructor
  · intro hno e he hc2
    exact hno e he (by rw [(hm e he).2, hc2])
  · intro hno e he hk
    have h1 := (hm e he).1
    have h2 := (hm e he).2
    exact hno e he (coordinatesToKey_inj h1 hc (by rw [← h2, hk]))

/-- Witness for C4's amended statement on the flat 5×2 grid, at key `100`
and the in-bounds pair `(1, 1)`. -/
theorem getitem_notfound_witness :
    (getItemKey flatGrid 100 = none ↔ ∀ e ∈ flatGrid, e.1 ≠ 100) ∧
    (getItemCoordinates 5 flatGrid (1, 1) = none ↔
      ∀ e ∈ flatGrid, e.1 ≠ coordinatesToKey 5 (1, 1)) ∧
    (getItemCoordinates 5 flatGrid (1, 1) = none ↔
      ∀ e ∈ flatGrid, e.2.coordinates ≠ (1, 1)) :=
  getitem_notfound 5 2 flatGrid 100 (1, 1) (by decide) (by decide)

/-- C4 counterexample: on the flat 5×2 grid (width 5), looking up the
out-of-bounds pair `(5, 0)` does not raise `NotFound`: its translated key
`5 + 5*0 = 5` aliases `0 + 5*1`, the key of the cell stored at `(0, 1)`,
which is returned — although no stored GridCell has coordinates `(5, 0)`. -/
theorem getitem_out_of_bounds_aliasing :
    ¬ InBounds 5 2 ((5, 0) : Int × Int) ∧
    getItemCoordinates 5 flatGrid (5, 0) = some ⟨4, 5, (0, 1)⟩ ∧
    ∀ e ∈ flatGrid, e.2.coordinates ≠ ((5, 0) : Int × Int) := by
  refine ⟨by decide, by with_unfolding_all rfl, by decide⟩

/-! ### C9: the deque is a FIFO queue -/

/-- The neighbor loop with left-consing (deque view) and the one with tail
appending (FIFO view) produce the same visited set and reversed queues. -/
theorem processNeighbors_fifo (w h : Nat) (co : Int × Int) :
    ∀ (nbrs : List Neighbor) (v : List Nat) (q : List QEntry),
      (processNeighbors w h co nbrs v q).1 = (processNeighborsF w h co nbrs v q.reverse).1 ∧
      (processNeighbors w h co nbrs v q).2.reverse =
        (processNeighborsF w h co nbrs v q.reverse).2 := by
  intro nbrs
  induction nbrs with
  | nil => intro v q; exact ⟨rfl, rfl⟩
  | cons nb t ih =>
    intro v q
    by_cases h1 : nb.cell ∈ v
    · rw [processNeighbors, processNeighborsF, if_pos h1, if_pos h1]
      exact ih v q
    · by_cases h2 : InBounds w h (neighborCoordinates co nb.position)
      · rw [processNeighbors, processNeighborsF, if_neg h1, if_neg h1]
        simp only [if_pos h2]
        have := ih (nb.cell :: v) ((neighborCoordinates co nb.position, nb.cell) :: q)
        rwa [List.reverse_cons] at this
      · rw [processNeighbors, processNeighborsF, if_neg h1, if_neg h1]
        simp only [if_neg h2]
        exact ih (nb.cell :: v) q

/-- The expansion loop on the deque (appendleft / pop-right) equals the
loop on the FIFO view of the same frontier (the deque reversed). -/
theorem expandLoop_fifo (env : Env) (w h : Nat) (b : ℚ) :
    ∀ (fuel : Nat) (cm : CellMap) (q : List QEntry) (v : List Nat),
      expandLoop env w h b fuel cm q v = expandLoopF env w h b fuel cm q.reverse v := by
  intro fuel
  induction fuel with
  | zero => intro cm q v; rfl
  | succ fuel ih =>
    intro cm q v
    cases hq : q.reverse with
    | nil =>
      have hqnil : q = [] := by simpa using congrArg List.reverse hq
      subst hqnil
      rfl
    | cons e t =>
      have hqe : q = t.reverse ++ [e] := by
        have := congrArg List.reverse hq
        simpa using this
      obtain ⟨coords, cell⟩ := e
      have hpop : popRight q = some ((coords, cell), t.reverse) := by
        rw [hqe]
        unfold popRight
        rw [List.getLast?_concat, List.dropLast_concat]
      rw [expandLoop, expandLoopF, hpop]
      by_cases hpent : env.isPentagon cell = true
      · simp [hpent]
      · simp only [Bool.not_eq_true] at hpent
        simp only [hpent, Bool.false_eq_true, if_false]
        have hpn := processNeighbors_fifo w h coords (getNeighborMap env cell b) v t.reverse
        rw [List.reverse_reverse] at hpn
        rw [← hpn.1, ← hpn.2]
        exact ih _ _ _

/-- In the FIFO view, one cell's neighbor loop appends exactly the kept
neighbors — an order-preserving sublist of the position-ordered neighbor
list — at the tail of the frontier. -/
theorem processNeighborsF_appends (w h : Nat) (co : Int × Int) :
    ∀ (nbrs : List Neighbor) (v : List Nat) (q : List QEntry),
      ∃ sel : List Neighbor, List.Sublist sel nbrs ∧
        (processNeighborsF w h co nbrs v q).2 =
          q ++ sel.map (fun nb => (neighborCoordinates co nb.position, nb.cell)) := by
  intro nbrs
  induction nbrs with
  | nil => intro v q; exact ⟨[], List.Sublist.refl _, by simp [processNeighborsF]⟩
  | cons nb t ih =>
    intro v q
    by_cases h1 : nb.cell ∈ v
    · rw [processNeighborsF, if_pos h1]
      obtain ⟨sel, hsub, heq⟩ := ih v q
      exact ⟨sel, hsub.cons _, heq⟩
    · by_cases h2 : InBounds w h (neighborCoordinates co nb.position)
      · rw [processNeighborsF, if_neg h1]
        simp only [if_pos h2]
        obtain ⟨sel, hsub, heq⟩ :=
          ih (nb.cell :: v) (q ++ [(neighborCoordinates co nb.position, nb.cell)])
        refine ⟨nb :: sel, hsub.cons₂ _, ?_⟩
        rw [heq, List.map_cons, List.append_assoc, List.singleton_append]
      · rw [processNeighborsF, if_neg h1]
        simp only [if_neg h2]
        obtain ⟨sel, hsub, heq⟩ := ih (nb.cell :: v) q
        exact ⟨sel, hsub.cons _, heq⟩

/-- C9: `expand_from_cell`'s deque, used with `appendleft` on one end and
`pop` on the other, is exactly a FIFO queue: the loop equals the loop on the
FIFO view of the frontier (breadth-first processing, oldest entry first);
the unvisited in-bounds neighbors of one dequeued cell are appended, hence
later dequeued, as an order-preserving selection from the neighbor map,
whose position sequence is ascending `0..N-1`. -/
theorem deque_fifo_refinement (env : Env) (w h : Nat) (b : ℚ) :
    (∀ (fuel : Nat) (cm : CellMap) (q : List QEntry) (v : List Nat),
      expandLoop env w h b fuel cm q v = expandLoopF env w h b fuel cm q.reverse v) ∧
    (∀ (coords : Int × Int) (nbrs : List Neighbor) (v : List Nat) (q : List QEntry),
      ∃ sel : List Neighbor, List.Sublist sel nbrs ∧
        (processNeighborsF w h coords nbrs v q).2 =
          q ++ sel.map (fun nb => (neighborCoordinates coords nb.position, nb.cell))) ∧
    (∀ c : Nat, (getNeighborMap env c b).map (fun nb => nb.position) =
      List.range (getNeighborMap env c b).length) :=
  ⟨expandLoop_fifo env w h b, fun coords nbrs v q => processNeighborsF_appends w h coords nbrs v q,
   fun c => getNeighborMap_positions env c b⟩

/-! ### C10: termination and size bound -/

/-- Neighbor cells come from the h3 ring of the dequeued cell. -/
theorem getNeighborMap_cell_mem_ring (env : Env) (c : Nat) (b : ℚ) :
    ∀ nb ∈ getNeighborMap env c b, nb.cell ∈ env.ring c := by
  intro nb hnb
  obtain ⟨p, hp, rfl⟩ := List.mem_map.1 hnb
  have hmem : p.2 ∈ _ := List.snd_mem_of_mem_enum hp
  rw [List.mem_insertionSort] at hmem
  obtain ⟨n, hn, heq⟩ := List.mem_map.1 hmem
  have : p.2.2 = n := by rw [← heq]
  rw [this]
  exact hn

/-- A duplicate-free list inside a finite set is no longer than the set. -/
theorem nodup_subset_length_le {l : List Nat} {S : Finset Nat}
    (hnd : l.Nodup) (hsub : ∀ x ∈ l, x ∈ S) : l.length ≤ S.card := by
  have h1 : l.toFinset ⊆ S := fun x hx => hsub x (List.mem_toFinset.1 hx)
  calc l.length = l.toFinset.card := (List.toFinset_card_of_nodup hnd).symm
    _ ≤ S.card := Finset.card_le_card h1

/-- The neighbor loop never shrinks the visited set. -/
theorem processNeighbors_visited_length (w h : Nat) (co : Int × Int) :
    ∀ (nbrs : List Neighbor) (v : List Nat) (q : List QEntry),
      v.length ≤ (processNeighbors w h co nbrs v q).1.length := by
  intro nbrs
  induction nbrs with
  | nil => intro v q; exact le_refl _
  | cons nb t ih =>
    intro v q
    by_cases h1 : nb.cell ∈ v
    · rw [processNeighbors, if_pos h1]; exact ih v q
    · by_cases h2 : InBounds w h (neighborCoordinates co nb.position)
      · rw [processNeighbors, if_neg h1]
        simp only [if_pos h2]
        calc v.length ≤ (nb.cell :: v).length := by simp
          _ ≤ _ := ih _ _
      · rw [processNeighbors, if_neg h1]
        simp only [if_neg h2]
        calc v.length ≤ (nb.cell :: v).length := by simp
          _ ≤ _ := ih _ _

/-- Fuel bound for the expansion loop: the measure
`|S| - |visited| + |queue|` drops by at least one per iteration, so any fuel
above it suffices — the loop cannot run out. -/
theorem expandLoop_terminates (env : Env) (w h : Nat) (b : ℚ) (S : Finset Nat)
    (hclosed : ∀ c, ∀ n ∈ env.ring c, n ∈ S) :
    ∀ (fuel : Nat) (cm : CellMap) (q : List QEntry) (v : List Nat),
      v.Nodup → (∀ x ∈ v, x ∈ S) →
      S.card - v.length + q.length < fuel →
      expandLoop env w h b fuel cm q v ≠ none := by
  intro fuel
  induction fuel with
  | zero =>
    intro cm q v _ _ hfuel
    exact absurd hfuel (Nat.not_lt_zero _)
  | succ fuel ih =>
    intro cm q v hnd hsub hfuel
    rw [expandLoop]
    cases hpop : popRight q with
    | none => simp
    | some pr =>
      obtain ⟨⟨coords, cell⟩, q'⟩ := pr
      by_cases hpent : env.isPentagon cell = true
      · simp [hpent]
      · simp only [Bool.not_eq_true] at hpent
        simp only [hpent, Bool.false_eq_true, if_false]
        have hnd' := processNeighbors_visited_nodup w h coords
          (getNeighborMap env cell b) v q' hnd
        have hsub' : ∀ x ∈ (processNeighbors w h coords
            (getNeighborMap env cell b) v q').1, x ∈ S := by
          intro x hx
          rcases processNeighbors_visited_mem w h coords _ v q' x hx with hv | ⟨nb, hnb, rfl⟩
          · exact hsub x hv
          · exact hclosed cell _ (getNeighborMap_cell_mem_ring env cell b nb hnb)
        apply ih _ _ _ hnd' hsub'
        have hqlen : q.length = q'.length + 1 := by
          rw [popRight_eq_some hpop]
          simp
        have hcount := processNeighbors_count w h coords (getNeighborMap env cell b) v q'
        have hvlen := processNeighbors_visited_length w h coords (getNeighborMap env cell b) v q'
        have hcard := nodup_subset_length_le hnd' hsub'
        omega

/-- C10: expansion always terminates — the visited-set check means every
distinct cell is enqueued at most once, so with the (finite) h3 cell universe
`S` closed under rings, fuel `|S| + 1` is enough for the loop to finish
(successfully or with the pentagon error); and a successful run stores at
most `w * h` GridCells, since stored keys are distinct and in `[0, w*h)`. -/
theorem expansion_terminates_and_bounded (env : Env) (w h : Nat) (b : ℚ) (seed : Nat)
    (S : Finset Nat) (hw : 0 < w) (hh : 0 < h)
    (hseed : seed ∈ S) (hclosed : ∀ c, ∀ n ∈ env.ring c, n ∈ S) :
    (∃ r, expandFromCell env w h b (S.card + 1) seed = some r) ∧
    (∀ fuel m, expandFromCell env w h b fuel seed = some (.ok m) →
      m.length ≤ w * h) := by
  constructor
  · have hpos : 0 < S.card := Finset.card_pos.2 ⟨seed, hseed⟩
    have hterm := expandLoop_terminates env w h b S hclosed (S.card + 1)
      [] [(seedCoordinates w h, seed)] [seed] (List.nodup_singleton _)
      (fun x hx => by rw [List.mem_singleton] at hx; subst hx; exact hseed)
      (by simp only [List.length_singleton]; omega)
    cases hr : expandFromCell env w h b (S.card + 1) seed with
    | none => exact absurd hr hterm
    | some r => exact ⟨r, rfl⟩
  · intro fuel m hrun
    obtain ⟨hcm, hnd, -⟩ := expandLoop_bounds_inv env w h b hw hh fuel seed m hrun
    have hkeys : ∀ k ∈ m.map Prod.fst, 0 ≤ k ∧ k < ((w * h : Nat) : Int) := by
      intro k hk
      obtain ⟨e, he, rfl⟩ := List.mem_map.1 hk
      obtain ⟨hb, hkey, hfst⟩ := hcm e he
      rw [hfst, hkey]
      unfold coordinatesToKey
      obtain ⟨h1, h2, h3, h4⟩ := hb
      constructor
      · positivity
      · push_cast
        nlinarith
    have hlen : (m.map Prod.fst).length ≤ w * h := by
      have h1 : (m.map Prod.fst).toFinset ⊆ Finset.Ico (0 : Int) ((w * h : Nat) : Int) := by
        intro x hx
        rw [List.mem_toFinset] at hx
        rw [Finset.mem_Ico]
        exact hkeys x hx
      calc (m.map Prod.fst).length = (m.map Prod.fst).toFinset.card :=
            (List.toFinset_card_of_nodup hnd).symm
        _ ≤ (Finset.Ico (0 : Int) ((w * h : Nat) : Int)).card := Finset.card_le_card h1
        _ = w * h := by
            rw [Int.card_Ico, sub_zero, Int.toNat_natCast]
    rwa [List.length_map] at hlen

/-- Witness for C10: the pentagon-free empty-ring environment on a 1×1 grid
with cell universe `{0}`. -/
theorem expansion_terminates_and_bounded_witness :
    (∃ r, expandFromCell westEnv 1 1 0 ({0} : Finset Nat).card.succ 0 = some r) ∧
    (∀ fuel m, expandFromCell westEnv 1 1 0 fuel 0 = some (.ok m) →
      m.length ≤ 1 * 1) :=
  expansion_terminates_and_bounded westEnv 1 1 0 0 {0} (by decide) (by decide)
    (by decide) (fun c n hn => absurd hn (List.not_mem_nil n))

/-! ### C8: stored iff reachable within bounds -/

/-- Soundness half of C8: every stored cell was reached from the seed by
in-bounds hex-adjacency steps. -/
theorem expandLoop_sound (env : Env) (w h : Nat) (b : ℚ) (fuel seed : Nat)
    (m : CellMap) (hw : 0 < w) (hh : 0 < h)
    (hrun : expandFromCell env w h b fuel seed = some (.ok m)) :
    ∀ e ∈ m, ReachIB env w h b seed e.2.cell e.2.coordinates := by
  have hstep : ∀ cm q v coords cell q',
      ((∀ e ∈ q, ReachIB env w h b seed e.2 e.1) ∧
        (∀ e ∈ cm, ReachIB env w h b seed e.2.cell e.2.coordinates)) →
      popRight q = some (((coords, cell) : QEntry), q') →
      env.isPentagon cell = false →
      ((∀ e ∈ (processNeighbors w h coords (getNeighborMap env cell b) v q').2,
          ReachIB env w h b seed e.2 e.1) ∧
        (∀ e ∈ mapInsert cm (coordinatesToKey w coords)
            ⟨cell, coordinatesToKey w coords, coords⟩,
          ReachIB env w h b seed e.2.cell e.2.coordinates)) := by
    rintro cm q v coords cell q' ⟨hq, hcm⟩ hpop hpent
    have hqsplit := popRight_eq_some hpop
    have hreach : ReachIB env w h b seed cell coords := by
      have hmem : ((coords, cell) : QEntry) ∈ q := by
        rw [hqsplit]; exact List.mem_append_right _ (List.mem_singleton.2 rfl)
      exact hq _ hmem
    constructor
    · intro e he
      rcases processNeighbors_queue_mem w h coords _ v q' e he with
        hold | ⟨hb, _, nb, hnb, he2, he1⟩
      · exact hq e (by rw [hqsplit]; exact List.mem_append_left _ hold)
      · rw [he2, he1]
        exact ReachIB.step hreach hnb (he1 ▸ hb)
    · intro e he
      rcases mapInsert_mem _ _ _ he with hnew | hold
      · subst hnew; exact hreach
      · exact hcm e hold
  have hinit : (∀ e ∈ [((seedCoordinates w h, seed) : QEntry)],
        ReachIB env w h b seed e.2 e.1) ∧
      (∀ e ∈ ([] : CellMap), ReachIB env w h b seed e.2.cell e.2.coordinates) := by
    constructor
    · intro e he
      rw [List.mem_singleton] at he
      subst he
      exact ReachIB.seed (seedCoordinates_inBounds hw hh)
    · intro e he; cases he
  obtain ⟨v', _, hcm⟩ := expandLoop_ok_inv env w h b
    (fun cm q v =>
      (∀ e ∈ q, ReachIB env w h b seed e.2 e.1) ∧
      (∀ e ∈ cm, ReachIB env w h b seed e.2.cell e.2.coordinates))
    hstep fuel [] [(seedCoordinates w h, seed)] [seed] m hinit hrun
  exact hcm

/-- If a cell occurring among the neighbors is unvisited and all of its
occurrences translate to the same in-bounds coordinates, the neighbor loop
enqueues it there. -/
theorem processNeighbors_enqueues (w h : Nat) (co : Int × Int) (x : Nat) (ξ : Int × Int) :
    ∀ (nbrs : List Neighbor) (v : List Nat) (q : List QEntry),
      x ∉ v → (∃ nb ∈ nbrs, nb.cell = x) →
      (∀ nb ∈ nbrs, nb.cell = x → neighborCoordinates co nb.position = ξ) →
      InBounds w h ξ →
      (ξ, x) ∈ (processNeighbors w h co nbrs v q).2 := by
  intro nbrs
  induction nbrs with
  | nil =>
    rintro v q _ ⟨nb, hnb, _⟩ _ _
    cases hnb
  | cons nb0 t ih =>
    rintro v q hxv ⟨nb, hnb, hnbx⟩ hcoord hb
    by_cases hx0 : nb0.cell = x
    · have hnotv : nb0.cell ∉ v := by rw [hx0]; exact hxv
      rw [processNeighbors, if_neg hnotv]
      have hco : neighborCoordinates co nb0.position = ξ :=
        hcoord nb0 (List.mem_cons_self _ _) hx0
      simp only [hco, if_pos hb]
      refine processNeighbors_queue_mono w h co t _ _ _ ?_
      rw [hx0]
      exact List.mem_cons_self _ _
    · have hnb' : nb ∈ t := by
        rcases List.mem_cons.1 hnb with hcase | hcase
        · exact absurd (hcase ▸ hnbx) hx0
        · exact hcase
      have hcoord' : ∀ nb' ∈ t, nb'.cell = x → neighborCoordinates co nb'.position = ξ :=
        fun nb' hnb'' => hcoord nb' (List.mem_cons_of_mem _ hnb'')
      by_cases h1 : nb0.cell ∈ v
      · rw [processNeighbors, if_pos h1]
        exact ih v q hxv ⟨nb, hnb', hnbx⟩ hcoord' hb
      · have hxv' : x ∉ nb0.cell :: v := by
          rw [List.mem_cons]
          rintro (hcase | hcase)
          · exact hx0 hcase.symm
          · exact hxv hcase
        by_cases h2 : InBounds w h (neighborCoordinates co nb0.position)
        · rw [processNeighbors, if_neg h1]
          simp only [if_pos h2]
          exact ih _ _ hxv' ⟨nb, hnb', hnbx⟩ hcoord' hb
        · rw [processNeighbors, if_neg h1]
          simp only [if_neg h2]
          exact ih _ _ hxv' ⟨nb, hnb', hnbx⟩ hcoord' hb

/-- Completeness half of C8, under a consistent injective coordinate
assignment: every cell reachable from the seed without leaving the bounds is
stored by a successful expansion. -/
theorem expandLoop_complete (env : Env) (w h : Nat) (b : ℚ) (seed : Nat)
    (φ : Nat → Int × Int) (hcons : Consistent env w h b seed φ)
    (hinj : Function.Injective φ) (hw : 0 < w) (hh : 0 < h)
    (fuel : Nat) (m : CellMap)
    (hrun : expandFromCell env w h b fuel seed = some (.ok m)) :
    ∀ c coords, ReachIB env w h b seed c coords →
      ∃ e ∈ m, e.2.cell = c ∧ e.2.coordinates = coords := by
  have hstep : ∀ cm q v coords cell q',
      ((∀ e ∈ q, e.2 ∈ v ∧ e.1 = φ e.2 ∧ InBounds w h e.1) ∧
        (∀ e ∈ cm, e.2.cell ∈ v ∧ e.2.coordinates = φ e.2.cell ∧
          e.1 = coordinatesToKey w e.2.coordinates ∧ InBounds w h e.2.coordinates) ∧
        (∀ x ∈ v, InBounds w h (φ x) →
          (∃ e ∈ cm, e.2.cell = x) ∨ (∃ e ∈ q, e.2 = x)) ∧
        seed ∈ v ∧
        (∀ e ∈ cm, ∀ nb ∈ getNeighborMap env e.2.cell b, nb.cell ∈ v)) →
      popRight q = some (((coords, cell) : QEntry), q') →
      env.isPentagon cell = false →
      ((∀ e ∈ (processNeighbors w h coords (getNeighborMap env cell b) v q').2,
          e.2 ∈ (processNeighbors w h coords (getNeighborMap env cell b) v q').1 ∧
          e.1 = φ e.2 ∧ InBounds w h e.1) ∧
        (∀ e ∈ mapInsert cm (coordinatesToKey w coords)
            ⟨cell, coordinatesToKey w coords, coords⟩,
          e.2.cell ∈ (processNeighbors w h coords (getNeighborMap env cell b) v q').1 ∧
          e.2.coordinates = φ e.2.cell ∧
          e.1 = coordinatesToKey w e.2.coordinates ∧ InBounds w h e.2.coordinates) ∧
        (∀ x ∈ (processNeighbors w h coords (getNeighborMap env cell b) v q').1,
          InBounds w h (φ x) →
          (∃ e ∈ mapInsert cm (coordinatesToKey w coords)
              ⟨cell, coordinatesToKey w coords, coords⟩, e.2.cell = x) ∨
          (∃ e ∈ (processNeighbors w h coords (getNeighborMap env cell b) v q').2,
            e.2 = x)) ∧
        seed ∈ (processNeighbors w h coords (getNeighborMap env cell b) v q').1 ∧
        (∀ e ∈ mapInsert cm (coordinatesToKey w coords)
            ⟨cell, coordinatesToKey w coords, coords⟩,
          ∀ nb ∈ getNeighborMap env e.2.cell b,
            nb.cell ∈ (processNeighbors w h coords (getNeighborMap env cell b) v q').1)) := by
    rintro cm q v coords cell q' ⟨hq, hcm, hvis, hseedv, hclo⟩ hpop hpent
    have hqsplit := popRight_eq_some hpop
    have hpopped : ((coords, cell) : QEntry) ∈ q := by
      rw [hqsplit]; exact List.mem_append_right _ (List.mem_singleton.2 rfl)
    obtain ⟨hcellv, hcoordφ, hcoordb⟩ := hq _ hpopped
    dsimp only at hcellv hcoordφ hcoordb
    have mono := processNeighbors_visited_mono w h coords (getNeighborMap env cell b) v q'
    refine ⟨?_, ?_, ?_, mono _ hseedv, ?_⟩
    · intro e he
      rcases processNeighbors_queue_mem w h coords _ v q' e he with
        hold | ⟨hb, hv', nb, hnb, he2, he1⟩
      · obtain ⟨h1, h2, h3⟩ := hq e (by rw [hqsplit]; exact List.mem_append_left _ hold)
        exact ⟨mono _ h1, h2, h3⟩
      · refine ⟨hv', ?_, hb⟩
        rw [he1, he2, hcons.2 cell nb hnb, hcoordφ]
    · intro e he
      rcases mapInsert_mem _ _ _ he with hnew | hold
      · subst hnew
        exact ⟨mono _ hcellv, hcoordφ, rfl, hcoordb⟩
      · obtain ⟨h1, h2, h3, h4⟩ := hcm e hold
        exact ⟨mono _ h1, h2, h3, h4⟩
    · intro x hx hbx
      by_cases hxv : x ∈ v
      · rcases hvis x hxv hbx with ⟨e, he, hecell⟩ | ⟨e, he, he2⟩
        · by_cases hkey : e.1 = coordinatesToKey w coords
          · obtain ⟨h1, h2, h3, h4⟩ := hcm e he
            have hφeq : φ x = φ cell := by
              rw [← hecell, ← h2]
              rw [h3] at hkey
              rw [@coordinatesToKey_inj w h _ _ h4 hcoordb hkey, hcoordφ]
            have hxcell : x = cell := hinj hφeq
            subst hxcell
            exact Or.inl ⟨_, mapInsert_mem_self _ _ _, rfl⟩
          · exact Or.inl ⟨e, mapInsert_mem_of_ne he hkey, hecell⟩
        · rw [hqsplit] at he
          rcases List.mem_append.1 he with hq' | hlast
          · exact Or.inr ⟨e, processNeighbors_queue_mono w h coords _ v q' e hq', he2⟩
          · rw [List.mem_singleton] at hlast
            subst hlast
            rw [← he2]
            exact Or.inl ⟨_, mapInsert_mem_self _ _ _, rfl⟩
      · have hex : ∃ nb ∈ getNeighborMap env cell b, nb.cell = x := by
          rcases processNeighbors_visited_mem w h coords _ v q' x hx with hcase | ⟨nb, hnb, rfl⟩
          · exact absurd hcase hxv
          · exact ⟨nb, hnb, rfl⟩
        refine Or.inr ⟨(φ x, x), ?_, rfl⟩
        refine processNeighbors_enqueues w h coords x (φ x) _ v q' hxv hex ?_ hbx
        intro nb hnb hnbx
        rw [← hnbx, hcons.2 cell nb hnb, hcoordφ]
    · intro e he nb hnb
      rcases mapInsert_mem _ _ _ he with hnew | hold
      · subst hnew
        exact processNeighbors_closure w h coords _ v q' nb hnb
      · exact mono _ (hclo e hold nb hnb)
  have hinit : (∀ e ∈ [((seedCoordinates w h, seed) : QEntry)],
        e.2 ∈ [seed] ∧ e.1 = φ e.2 ∧ InBounds w h e.1) ∧
      (∀ e ∈ ([] : CellMap), e.2.cell ∈ [seed] ∧ e.2.coordinates = φ e.2.cell ∧
        e.1 = coordinatesToKey w e.2.coordinates ∧ InBounds w h e.2.coordinates) ∧
      (∀ x ∈ [seed], InBounds w h (φ x) →
        (∃ e ∈ ([] : CellMap), e.2.cell = x) ∨
        (∃ e ∈ [((seedCoordinates w h, seed) : QEntry)], e.2 = x)) ∧
      seed ∈ [seed] ∧
      (∀ e ∈ ([] : CellMap), ∀ nb ∈ getNeighborMap env e.2.cell b, nb.cell ∈ [seed]) := by
    refine ⟨?_, ?_, ?_, List.mem_singleton.2 rfl, ?_⟩
    · intro e he
      rw [List.mem_singleton] at he
      subst he
      exact ⟨List.mem_singleton.2 rfl, hcons.1.symm, seedCoordinates_inBounds hw hh⟩
    · intro e he
      cases he
    · intro x hx _
      rw [List.mem_singleton] at hx
      subst hx
      exact Or.inr ⟨(seedCoordinates w h, x), List.mem_singleton.2 rfl, rfl⟩
    · intro e he
      cases he
  obtain ⟨v', hq, hcm, hvis, hseedv, hclo⟩ := expandLoop_ok_inv env w h b
    (fun cm q v =>
      (∀ e ∈ q, e.2 ∈ v ∧ e.1 = φ e.2 ∧ InBounds w h e.1) ∧
      (∀ e ∈ cm, e.2.cell ∈ v ∧ e.2.coordinates = φ e.2.cell ∧
        e.1 = coordinatesToKey w e.2.coordinates ∧ InBounds w h e.2.coordinates) ∧
      (∀ x ∈ v, InBounds w h (φ x) →
        (∃ e ∈ cm, e.2.cell = x) ∨ (∃ e ∈ q, e.2 = x)) ∧
      seed ∈ v ∧
      (∀ e ∈ cm, ∀ nb ∈ getNeighborMap env e.2.cell b, nb.cell ∈ v))
    hstep fuel [] [(seedCoordinates w h, seed)] [seed] m hinit hrun
  intro c coords hreach
  induction hreach with
  | seed hb =>
    have hbseed : InBounds w h (φ seed) := by rw [hcons.1]; exact hb
    rcases hvis seed hseedv hbseed with ⟨e, he, hecell⟩ | ⟨e, he, _⟩
    · refine ⟨e, he, hecell, ?_⟩
      rw [(hcm e he).2.1, hecell, hcons.1]
    · cases he
  | step hr hnb hbnc ih =>
    obtain ⟨e, he, hecell, hecoords⟩ := ih
    rename_i c0 coords0 nb
    have hcoordφ : coords0 = φ c0 := by
      rw [← hecoords, (hcm e he).2.1, hecell]
    have hnbv : nb.cell ∈ v' := by
      refine hclo e he nb ?_
      rw [hecell]
      exact hnb
    have hφnb : φ nb.cell = neighborCoordinates coords0 nb.position := by
      rw [hcons.2 c0 nb hnb, ← hcoordφ]
    have hbφ : InBounds w h (φ nb.cell) := by rw [hφnb]; exact hbnc
    rcases hvis nb.cell hnbv hbφ with ⟨e', he', hecell'⟩ | ⟨e', he', _⟩
    · exact ⟨e', he', hecell', by rw [(hcm e' he').2.1, hecell', hφnb]⟩
    · cases he'

/-- C8 amended: after a successful expansion (positive dimensions), every
stored cell is reachable from the seed by hex-adjacency steps whose offset
coordinates all stay in bounds — unconditionally; and, provided the neighbor
geometry admits a consistent injective coordinate assignment
(path-independent coordinates, as in a locally flat hex tiling), every cell
reachable within bounds is stored.  Without consistency the reverse
direction fails, because a cell first met at out-of-bounds coordinates is
marked visited and never enqueued again (see the counterexample). -/
theorem expansion_stores_iff_reachable (env : Env) (w h : Nat) (b : ℚ)
    (fuel seed : Nat) (m : CellMap) (hw : 0 < w) (hh : 0 < h)
    (hrun : expandFromCell env w h b fuel seed = some (.ok m)) :
    (∀ e ∈ m, ReachIB env w h b seed e.2.cell e.2.coordinates) ∧
    (∀ φ : Nat → Int × Int, Consistent env w h b seed φ → Function.Injective φ →
      ∀ c coords, ReachIB env w h b seed c coords →
        ∃ e ∈ m, e.2.cell = c ∧ e.2.coordinates = coords) :=
  ⟨expandLoop_sound env w h b fuel seed m hw hh hrun,
   fun φ hcons hinj => expandLoop_complete env w h b seed φ hcons hinj hw hh fuel m hrun⟩

/-- C8 counterexample: in the (path-dependent) environment `badEnv` on a
3×1 grid, cell 2 is reachable from the seed without leaving the bounds —
seed 0 at (1,0) → its position-1 neighbor 1 at (2,0) → its position-4
neighbor 2 at (1,0) — yet the successful expansion stores it nowhere: cell 2
was first met as the seed's position-0 neighbor at the out-of-bounds (1,1),
marked visited there, and never enqueued again. -/
theorem reachable_cell_not_stored :
    expandFromCell badEnv 3 1 0 20 0 = some (.ok badGrid) ∧
    ReachIB badEnv 3 1 0 0 2 (1, 0) ∧
    ∀ e ∈ badGrid, e.2.cell ≠ 2 := by
  refine ⟨by with_unfolding_all rfl, ?_, by decide⟩
  have h0 : ReachIB badEnv 3 1 0 0 0 (1, 0) := ReachIB.seed (by decide)
  have h1 : ReachIB badEnv 3 1 0 0 1 (2, 0) := by
    have hm : getNeighborMap badEnv 0 0 =
        [⟨2, 0, 0⟩, ⟨1, 1, 60⟩, ⟨3, 2, 120⟩, ⟨4, 3, 180⟩, ⟨5, 4, 240⟩, ⟨6, 5, 300⟩] := by
      with_unfolding_all rfl
    have hnb : (⟨1, 1, 60⟩ : Neighbor) ∈ getNeighborMap badEnv 0 0 := by
      rw [hm]
      exact List.mem_cons_of_mem _ (List.mem_cons_self _ _)
    have hco : neighborCoordinates ((1 : Int), (0 : Int)) 1 = (2, 0) := by decide
    have hstep := ReachIB.step h0 hnb (by rw [hco]; decide)
    rwa [hco] at hstep
  have hm1 : getNeighborMap badEnv 1 0 =
      [⟨7, 0, 0⟩, ⟨0, 1, 60⟩, ⟨8, 2, 120⟩, ⟨9, 3, 180⟩, ⟨2, 4, 240⟩, ⟨10, 5, 300⟩] := by
    with_unfolding_all rfl
  have hnb1 : (⟨2, 4, 240⟩ : Neighbor) ∈ getNeighborMap badEnv 1 0 := by
    rw [hm1]
    exact List.mem_cons_of_mem _ (List.mem_cons_of_mem _ (List.mem_cons_of_mem _
      (List.mem_cons_of_mem _ (List.mem_cons_self _ _))))
  have hco1 : neighborCoordinates ((2 : Int), (0 : Int)) 4 = (1, 0) := by decide
  have hstep1 := ReachIB.step h1 hnb1 (by rw [hco1]; decide)
  rwa [hco1] at hstep1

/-- Witness for C8 on a 1×1 grid in the empty-ring environment, with the
injective consistent assignment `c ↦ (c, c)`: the reachable seed is stored. -/
theorem expansion_stores_iff_reachable_witness :
    ∃ e ∈ ([(0, ⟨0, 0, (0, 0)⟩)] : CellMap), e.2.cell = 0 ∧ e.2.coordinates = (0, 0) := by
  have hthm := expansion_stores_iff_reachable westEnv 1 1 0 2 0
    [(0, ⟨0, 0, (0, 0)⟩)] (by decide) (by decide) (by with_unfolding_all rfl)
  refine hthm.2 (fun c => ((c : Int), (c : Int))) ⟨?_, ?_⟩ ?_ 0 (0, 0)
    (ReachIB.seed (by decide))
  · with_unfolding_all rfl
  · intro c nb hnb
    have hm : getNeighborMap westEnv c 0 = [] := rfl
    rw [hm] at hnb
    cases hnb
  · intro a b' hab
    simp only [Prod.mk.injEq, Int.natCast_inj] at hab
    exact hab.1

